import Mathlib

/-!
Verification of the sys-locale library (`src/lib.rs`) against its
natural-language specification.

The crate's public layer (`src/lib.rs`) exposes `get_locale()` and
`get_locales()`.  In the source, `get_locales()` returns
`provider::get()` verbatim and `get_locale()` is
`get_locales().into_iter().next()`.  The platform provider modules
(`unix`, `apple`, `android`, `wasm`, `windows`) are not part of the
sources here; only the fallback no-op provider is visible in `lib.rs`.
Where a property depends on the per-entry normalization performed inside
a platform provider, that normalization is modelled from the spec
(sections 4.1 and 4.2) and is clearly marked as such.

The embedding passes the active provider's output (and, one level down,
the raw platform entries) as an explicit argument, since in Rust these
are read from ambient system configuration.
-/

namespace SysLocale

/-- The fallback no-op provider from `lib.rs` (the inline `provider`
module used on targets not covered by a platform module): its `get()`
returns `Vec::new()` unconditionally. -/
def fallbackProviderGet : List String := []

/-- `get_locales()` from `lib.rs`: the body is exactly `provider::get()`,
so the public layer returns the active provider's output verbatim.  The
provider's output is passed explicitly. -/
def get_locales (providerOutput : List String) : List String :=
  providerOutput

/-- `get_locale()` from `lib.rs`: the body is exactly
`get_locales().into_iter().next()`, i.e. the head of the list returned
by `get_locales()`. -/
def get_locale (providerOutput : List String) : Option String :=
  (get_locales providerOutput).head?

/-- The NUL character. -/
def nulChar : Char := Char.ofNat 0

/-- Drop the trailing run of NUL characters from a character list
(spec section 4.2 step 1: strip a trailing NUL terminator when the
source representation is NUL-padded). -/
def dropTrailingNuls (cs : List Char) : List Char :=
  (cs.reverse.dropWhile (fun c => c == nulChar)).reverse

/-- Modelled from the spec: the per-entry cleaning of section 4.2
step 1, performed inside the platform provider modules that are not in
the sources.  Strip trailing NUL padding, strip the trailing encoding
suffix (everything from the first '.' on, e.g. a POSIX `.UTF-8`
codeset), and substitute hyphens for underscore separators. -/
def cleanChars (cs : List Char) : List Char :=
  ((dropTrailingNuls cs).takeWhile (fun c => c != '.')).map
    (fun c => if c = '_' then '-' else c)

/-- Modelled from the spec: per-entry normalization of section 4.2
steps 1-3, performed inside the platform provider modules that are not
in the sources.  Clean the raw entry, then drop it when the result is
empty or is one of the sentinel "no locale configured" values `C` and
`POSIX`; otherwise emit the cleaned string as a canonical tag
candidate. -/
def normalize (r : String) : Option String :=
  if String.mk (cleanChars r.data) = "" ∨ String.mk (cleanChars r.data) = "C" ∨
      String.mk (cleanChars r.data) = "POSIX" then
    none
  else
    some (String.mk (cleanChars r.data))

/-- Modelled from the spec: the assembly loop of section 4.2, performed
inside the platform provider modules that are not in the sources.
Iterate candidates in emitted order and append each to the result only
if it is not already present (case-sensitive exact match). -/
def assemble (acc : List String) : List String → List String
  | [] => acc
  | c :: cs => assemble (if c ∈ acc then acc else acc ++ [c]) cs

/-- Modelled from the spec: a platform provider's `get()` (the
`fetch_raw` plus normalization pipeline of sections 4.1-4.2), applied to
the raw platform entries. -/
def provider_get (raws : List String) : List String :=
  assemble [] (raws.filterMap normalize)

/-- The full pipeline behind `get_locales()`: the public layer applied
to the (spec-modelled) active provider's output for raw entries
`raws`. -/
def locales_of (raws : List String) : List String :=
  get_locales (provider_get raws)

/-- The full pipeline behind `get_locale()`. -/
def locale_of (raws : List String) : Option String :=
  get_locale (provider_get raws)

/-- The ambient system configuration observed by a call: the raw
entries the active platform would report.  The library itself keeps no
state, so this is the only state a call can read. -/
structure SystemState where
  raws : List String

/-- One call to `get_locales()` as a state transition: it reads the
system configuration and returns a fresh list, leaving every state it
could touch unchanged (the library holds no cache or retained state). -/
def callGetLocales (st : SystemState) : List String × SystemState :=
  (locales_of st.raws, st)

/-! Helper lemmas about the assembly loop and the normalizer. -/

theorem assemble_nodup (cs : List String) :
    ∀ acc : List String, acc.Nodup → (assemble acc cs).Nodup := by
  induction cs with
  | nil => intro acc h; simpa [assemble] using h
  | cons c cs ih =>
    intro acc h
    by_cases hc : c ∈ acc
    · simpa [assemble, hc] using ih acc h
    · have hacc : (acc ++ [c]).Nodup := by
        simp [List.nodup_append, h, hc]
      simpa [assemble, hc] using ih (acc ++ [c]) hacc

theorem assemble_eq_append (cs : List String) :
    ∀ acc : List String, cs.Nodup → (∀ c ∈ cs, c ∉ acc) →
      assemble acc cs = acc ++ cs := by
  induction cs with
  | nil => intro acc _ _; simp [assemble]
  | cons c cs ih =>
    intro acc hnd hdisj
    have hc : c ∉ acc := hdisj c (by simp)
    have hdisj2 : ∀ x ∈ cs, x ∉ acc ++ [c] := by
      intro x hx
      simp only [List.mem_append, List.mem_singleton]
      rintro (hxa | hxc)
      · exact hdisj x (List.mem_cons_of_mem _ hx) hxa
      · exact (List.nodup_cons.mp hnd).1 (hxc ▸ hx)
    calc assemble acc (c :: cs) = assemble (acc ++ [c]) cs := by
          simp [assemble, hc]
      _ = (acc ++ [c]) ++ cs := ih (acc ++ [c]) (List.Nodup.of_cons hnd) hdisj2
      _ = acc ++ c :: cs := by simp

theorem mem_assemble (cs : List String) :
    ∀ acc x, x ∈ assemble acc cs → x ∈ acc ∨ x ∈ cs := by
  induction cs with
  | nil => intro acc x hx; exact Or.inl (by simpa [assemble] using hx)
  | cons c cs ih =>
    intro acc x hx
    by_cases hc : c ∈ acc
    · rcases ih acc x (by simpa [assemble, hc] using hx) with h | h
      · exact Or.inl h
      · exact Or.inr (List.mem_cons_of_mem _ h)
    · rcases ih (acc ++ [c]) x (by simpa [assemble, hc] using hx) with h | h
      · rcases List.mem_append.mp h with h | h
        · exact Or.inl h
        · refine Or.inr ?_
          simp only [List.mem_singleton] at h
          simp [h]
      · exact Or.inr (List.mem_cons_of_mem _ h)

theorem length_filterMap_of_isSome (f : String → Option String) :
    ∀ l : List String, (∀ r ∈ l, (f r).isSome) →
      (l.filterMap f).length = l.length := by
  intro l
  induction l with
  | nil => intro _; simp
  | cons r l ih =>
    intro h
    rcases Option.isSome_iff_exists.mp (h r (by simp)) with ⟨s, hs⟩
    simp [List.filterMap_cons, hs, ih fun x hx => h x (List.mem_cons_of_mem _ hx)]

theorem normalize_eq_some (r s : String) (h : normalize r = some s) :
    s = String.mk (cleanChars r.data) ∧ s ≠ "" ∧ s ≠ "C" ∧ s ≠ "POSIX" := by
  unfold normalize at h
  split_ifs at h with hcond
  push_neg at hcond
  have hs : String.mk (cleanChars r.data) = s := by simpa using h
  subst hs
  exact ⟨rfl, hcond.1, hcond.2.1, hcond.2.2⟩

theorem underscore_not_mem_clean (cs : List Char) : '_' ∉ cleanChars cs := by
  intro h
  unfold cleanChars at h
  rcases List.mem_map.mp h with ⟨c, _, hc⟩
  by_cases h' : c = '_'
  · rw [if_pos h'] at hc
    exact absurd hc (by decide)
  · rw [if_neg h'] at hc
    exact h' hc

theorem nul_mem_clean (cs : List Char) (h : nulChar ∈ cleanChars cs) :
    nulChar ∈ dropTrailingNuls cs := by
  unfold cleanChars at h
  rcases List.mem_map.mp h with ⟨c, hmem, hc⟩
  have hcnul : c = nulChar := by
    by_cases h' : c = '_'
    · rw [if_pos h'] at hc
      exact absurd hc (by decide)
    · rwa [if_neg h'] at hc
  subst hcnul
  exact (List.takeWhile_sublist _).subset hmem

theorem mem_locales_normalize (raws : List String) (s : String)
    (hs : s ∈ locales_of raws) : ∃ r ∈ raws, normalize r = some s := by
  unfold locales_of get_locales provider_get at hs
  rcases mem_assemble (raws.filterMap normalize) [] s hs with h | h
  · exact absurd h (List.not_mem_nil s)
  · exact List.mem_filterMap.mp h

theorem filterMap_filter_of_none (p : String → Bool)
    (hp : ∀ r, p r = false → normalize r = none) :
    ∀ raws : List String,
      (raws.filter p).filterMap normalize = raws.filterMap normalize := by
  intro raws
  induction raws with
  | nil => simp
  | cons r raws ih =>
    cases hpr : p r with
    | false =>
      rw [List.filter_cons_of_neg (by simp [hpr]), ih]
      simp [List.filterMap_cons, hp r hpr]
    | true =>
      rw [List.filter_cons_of_pos hpr]
      cases hno : normalize r with
      | none => simp [List.filterMap_cons, hno, ih]
      | some s => simp [List.filterMap_cons, hno, ih]

theorem filterMap_normalize_filter_sentinels (raws : List String) :
    (raws.filter fun r => !(r == "C" || r == "POSIX" || r == "")).filterMap normalize =
      raws.filterMap normalize := by
  refine filterMap_filter_of_none _ ?_ raws
  intro r hr
  have hsent : r = "C" ∨ r = "POSIX" ∨ r = "" := by
    by_cases h1 : r = "C"
    · exact Or.inl h1
    · by_cases h2 : r = "POSIX"
      · exact Or.inr (Or.inl h2)
      · exact Or.inr (Or.inr (by simpa [h1, h2] using hr))
  rcases hsent with h | h | h <;> subst h <;> decide

/-! The claims. -/

/-- Claim C1: `get_locale()` equals the head of the list returned by
`get_locales()`, and is `none` exactly when that list is empty; it performs no
independent provider query, being defined from the `get_locales()` result
itself. -/
theorem get_locale_consistent (v : List String) :
    get_locale v = (get_locales v).head? ∧ (get_locale v = none ↔ get_locales v = []) := by
  refine ⟨rfl, ?_⟩
  cases v <;> simp [get_locale, get_locales]

/-- Claim C1 witness at a concrete provider output. -/
theorem get_locale_consistent_witness :
    get_locale ["en-US", "fr-FR"] = (get_locales ["en-US", "fr-FR"]).head? ∧
      (get_locale ["en-US", "fr-FR"] = none ↔ get_locales ["en-US", "fr-FR"] = []) :=
  get_locale_consistent ["en-US", "fr-FR"]

/-- Claim C2: when the active provider returns an empty sequence,
`get_locales()` returns the empty list and `get_locale()` returns `none`; both
are total functions of the provider output, so no failure is raised. -/
theorem empty_provider_graceful :
    get_locales [] = [] ∧ get_locale [] = none ∧ locales_of [] = [] ∧ locale_of [] = none :=
  ⟨rfl, rfl, rfl, rfl⟩

/-- Claim C3: the fallback provider for build targets without a platform module
returns the empty sequence unconditionally, so the public API reports no
locales there. -/
theorem fallback_provider_empty :
    fallbackProviderGet = [] ∧ get_locales fallbackProviderGet = [] ∧
      get_locale fallbackProviderGet = none :=
  ⟨rfl, rfl, rfl⟩

/-- Claim C4: the assembled list never contains two equal strings: each
candidate is appended only when not already present, first occurrence wins. -/
theorem locales_nodup (raws : List String) : (locales_of raws).Nodup := by
  unfold locales_of get_locales provider_get
  exact assemble_nodup _ [] List.nodup_nil

/-- Claim C4 witness: a duplicated raw entry is deduplicated. -/
theorem locales_nodup_witness : (locales_of ["en_US", "en_US.UTF-8"]).Nodup :=
  locales_nodup ["en_US", "en_US.UTF-8"]

/-- Claim C5 counterexample: a raw entry with an embedded (non-trailing) NUL
survives normalization with the NUL intact, so a returned string can contain a
NUL byte. -/
theorem locales_nul_counterexample :
    locales_of [String.mk ['a', nulChar, 'b']] = [String.mk ['a', nulChar, 'b']] ∧
      nulChar ∈ (String.mk ['a', nulChar, 'b']).data := by
  decide

/-- Claim C5 (amended): every string returned by the pipeline is non-empty and
contains no underscore; and when every raw entry contains NUL characters only
as trailing padding, every returned string also contains no NUL byte. -/
theorem locales_wellformed (raws : List String) (s : String)
    (hs : s ∈ locales_of raws) :
    s ≠ "" ∧ '_' ∉ s.data ∧
      ((∀ r ∈ raws, nulChar ∉ dropTrailingNuls r.data) → nulChar ∉ s.data) := by
  rcases mem_locales_normalize raws s hs with ⟨r, hr, hnorm⟩
  rcases normalize_eq_some r s hnorm with ⟨hdata, hne, _, _⟩
  have hsd : s.data = cleanChars r.data := by rw [hdata]
  refine ⟨hne, ?_, ?_⟩
  · rw [hsd]
    exact underscore_not_mem_clean r.data
  · intro hnul hmem
    rw [hsd] at hmem
    exact hnul r hr (nul_mem_clean r.data hmem)

/-- Claim C5 witness: the normalized form of `en_US.UTF-8` is well-formed. -/
theorem locales_wellformed_witness :
    "en-US" ≠ "" ∧ '_' ∉ "en-US".data ∧
      ((∀ r ∈ ["en_US.UTF-8"], nulChar ∉ dropTrailingNuls r.data) →
        nulChar ∉ "en-US".data) :=
  locales_wellformed ["en_US.UTF-8"] "en-US" (by decide)

/-- Claim C6: when every raw entry normalizes successfully and the normalized
tags are pairwise distinct, the pipeline returns exactly the normalized forms
in the provider's emitted order, dropping nothing and re-sorting nothing. -/
theorem locales_order_preserving (raws : List String)
    (h1 : ∀ r ∈ raws, (normalize r).isSome)
    (h2 : (raws.filterMap normalize).Nodup) :
    locales_of raws = raws.filterMap normalize ∧
      (locales_of raws).length = raws.length := by
  have hmain : locales_of raws = raws.filterMap normalize := by
    unfold locales_of get_locales provider_get
    rw [assemble_eq_append _ [] h2 fun c _ => List.not_mem_nil c]
    simp
  refine ⟨hmain, ?_⟩
  rw [hmain]
  exact length_filterMap_of_isSome normalize raws h1

/-- Claim C6 witness: two distinct raw entries come back normalized, in
order. -/
theorem locales_order_preserving_witness :
    locales_of ["en_US.UTF-8", "fr_FR.UTF-8"] =
        (["en_US.UTF-8", "fr_FR.UTF-8"] : List String).filterMap normalize ∧
      (locales_of ["en_US.UTF-8", "fr_FR.UTF-8"]).length =
        (["en_US.UTF-8", "fr_FR.UTF-8"] : List String).length :=
  locales_order_preserving ["en_US.UTF-8", "fr_FR.UTF-8"] (by decide) (by decide)

/-- Claim C7: the sentinel raw values `C`, `POSIX` and the empty string
normalize to nothing; removing them from the raw entries leaves the result
unchanged; and no returned list ever contains a sentinel value. -/
theorem sentinels_filtered :
    (normalize "C" = none ∧ normalize "POSIX" = none ∧ normalize "" = none) ∧
      (∀ raws : List String,
        locales_of (raws.filter fun r => !(r == "C" || r == "POSIX" || r == "")) =
          locales_of raws) ∧
      (∀ raws : List String, "C" ∉ locales_of raws ∧ "POSIX" ∉ locales_of raws ∧
        "" ∉ locales_of raws) := by
  refine ⟨by decide, ?_, ?_⟩
  · intro raws
    unfold locales_of get_locales provider_get
    rw [filterMap_normalize_filter_sentinels]
  · intro raws
    refine ⟨fun hmem => ?_, fun hmem => ?_, fun hmem => ?_⟩
    · rcases mem_locales_normalize raws _ hmem with ⟨r, _, hnorm⟩
      exact (normalize_eq_some r _ hnorm).2.2.1 rfl
    · rcases mem_locales_normalize raws _ hmem with ⟨r, _, hnorm⟩
      exact (normalize_eq_some r _ hnorm).2.2.2 rfl
    · rcases mem_locales_normalize raws _ hmem with ⟨r, _, hnorm⟩
      exact (normalize_eq_some r _ hnorm).2.1 rfl

/-- Claim C7 witness: a `C` raw entry does not reach the result. -/
theorem sentinels_filtered_witness : "C" ∉ locales_of ["C", "en_US"] :=
  (sentinels_filtered.2.2 ["C", "en_US"]).1

/-- Claim C8: a call to `get_locales()` leaves the system state untouched (the
library retains no state and no cache), so two consecutive calls under an
unchanged system configuration return identical lists. -/
theorem locales_stateless (st : SystemState) :
    (callGetLocales st).2 = st ∧
      (callGetLocales (callGetLocales st).2).1 = (callGetLocales st).1 :=
  ⟨rfl, rfl⟩

/-- Claim C8 witness at a concrete system state. -/
theorem locales_stateless_witness :
    (callGetLocales ⟨["en_US"]⟩).2 = (⟨["en_US"]⟩ : SystemState) ∧
      (callGetLocales (callGetLocales ⟨["en_US"]⟩).2).1 =
        (callGetLocales ⟨["en_US"]⟩).1 :=
  locales_stateless ⟨["en_US"]⟩

/-- Claim C9: the pipeline is a total function of the raw entries, and an
entry that fails to normalize is dropped without voiding the rest: deleting it
from anywhere in the raw sequence changes neither `get_locales()` nor
`get_locale()`. -/
theorem malformed_entry_dropped (xs ys : List String) (r : String)
    (h : normalize r = none) :
    locales_of (xs ++ r :: ys) = locales_of (xs ++ ys) ∧
      locale_of (xs ++ r :: ys) = locale_of (xs ++ ys) := by
  have hfm : (xs ++ r :: ys).filterMap normalize = (xs ++ ys).filterMap normalize := by
    simp [List.filterMap_append, List.filterMap_cons, h]
  constructor
  · unfold locales_of get_locales provider_get
    rw [hfm]
  · unfold locale_of get_locale get_locales provider_get
    rw [hfm]

/-- Claim C9 witness: dropping the unparseable `C` entry between two good
entries leaves the result unchanged. -/
theorem malformed_entry_dropped_witness :
    locales_of (["en_US"] ++ "C" :: ["fr_FR"]) = locales_of (["en_US"] ++ ["fr_FR"]) ∧
      locale_of (["en_US"] ++ "C" :: ["fr_FR"]) = locale_of (["en_US"] ++ ["fr_FR"]) :=
  malformed_entry_dropped ["en_US"] ["fr_FR"] "C" (by decide)

/-- Claim C10: `get_locales()` in `lib.rs` returns the active provider's output
verbatim: the public layer applies no deduplication (a duplicated provider
output stays duplicated) and no normalization (an underscore entry passes
through unchanged, unlike in the provider-side pipeline). -/
theorem get_locales_passthrough :
    (∀ v : List String, get_locales v = v) ∧
      ¬ (get_locales ["en", "en"]).Nodup ∧
      get_locales ["en_US"] ≠ provider_get ["en_US"] :=
  ⟨fun _ => rfl, by decide, by decide⟩

/-- Claim C10 witness at a concrete provider output. -/
theorem get_locales_passthrough_witness :
    get_locales ["en-US", "fr-FR"] = ["en-US", "fr-FR"] :=
  get_locales_passthrough.1 ["en-US", "fr-FR"]

end SysLocale
